import Mathlib

/-!
Shallow embedding of the nom-bibtex resolution engine (`src/model.rs`).

The engine turns an ordered list of raw entries (variable definitions,
comments, preambles, bibliography records) into a resolved document.
`expand_variables_value` in the source is unboundedly recursive (no cycle
detection), so its embedding `expandVariablesValue` takes a fuel argument:
`none` means the fuel ran out, and `∀ fuel, … = none` means the source
function diverges on that input.  Rust `HashMap`s are embedded as
association lists with unique keys (`hmInsert` replaces in place, which is
a canonical, order-deterministic representative of the unordered map);
lookups (`hmGet`) agree with `HashMap::get` and with `iter().find` by key.
-/

/-- Fragment of a raw value: a literal string, or an abbreviation naming a
variable/constant to substitute (`StringValueType` in `model.rs`). -/
inductive StringValueType where
  | Str : String → StringValueType
  | Abbreviation : String → StringValueType
  deriving DecidableEq

/-- A key paired with an ordered fragment list (`KeyValue` in `model.rs`). -/
structure KeyValue where
  key : String
  value : List StringValueType
  deriving DecidableEq

/-- Raw syntactic entry as produced by the grammar (`Entry` in the source's
parser module; its shape is fixed by the consumption sites in `model.rs`). -/
inductive Entry where
  | Variable : KeyValue → Entry
  | Comment : String → Entry
  | Preamble : List StringValueType → Entry
  | Bibliography : String → String → List KeyValue → Entry
  deriving DecidableEq

/-- Error type. `stringVariableNotFound` is `BibtexError::StringVariableNotFound`
from `model.rs`.  `syntaxError` is modelled from the spec: the grammar
collaborator's `SyntaxError` (the source's `error.rs` is not part of the
resolution engine shown). -/
inductive BibtexError where
  | stringVariableNotFound : String → BibtexError
  | syntaxError : String → BibtexError
  deriving DecidableEq

/-- The fixed month table (`TABLE_MONTHS` in `model.rs`). -/
def TABLE_MONTHS : List (String × String) :=
  [("jan", "January"), ("feb", "February"), ("mar", "March"),
   ("apr", "April"), ("may", "May"), ("jun", "June"),
   ("jul", "July"), ("aug", "August"), ("sep", "September"),
   ("oct", "October"), ("nov", "November"), ("dec", "December")]

/-- Lookup in the constant table; `fill_constants` inserts exactly the pairs
of `TABLE_MONTHS` into `const_map`, so `const_map.get` is this lookup. -/
def constGet (name : String) : Option String :=
  (TABLE_MONTHS.find? (fun p => p.1 == name)).map Prod.snd

/-- Lookup by key in an association-list embedding of `HashMap<String, String>`. -/
def hmGet (m : List (String × String)) (k : String) : Option String :=
  (m.find? (fun p => p.1 == k)).map Prod.snd

/-- Insert into the association-list embedding of `HashMap<String, String>`:
an existing binding of the key is overwritten, otherwise the pair is added. -/
def hmInsert (m : List (String × String)) (k v : String) : List (String × String) :=
  if m.any (fun p => p.1 == k) then m.map (fun p => if p.1 == k then (k, v) else p)
  else m ++ [(k, v)]

/-- First declared variable with the given name:
`variables.iter().find(|&x| *v == x.key)` in `expand_variables_value`. -/
def findVar (name : String) (vars : List KeyValue) : Option KeyValue :=
  vars.find? (fun x => name == x.key)

/-- The `Entry::Variable` payloads of the stream, in declaration order
(the `filter_map` at the top of `fill_variables`). -/
def declaredVars (entries : List Entry) : List KeyValue :=
  entries.filterMap (fun e => match e with
    | Entry.Variable kv => some kv
    | _ => none)

/-- Fuel-indexed embedding of `Bibtex::expand_variables_value`: expand a
fragment list against the full declared-variable list, recursively expanding
abbreviations via first-match lookup.  The source recurses without any
bound; here every step consumes one unit of fuel and `none` means the fuel
ran out, so the source call diverges exactly when every fuel yields `none`
and returns `r` exactly when some fuel yields `some r` (the result is
stable under adding fuel, see `expandVariablesValue_mono`). -/
def expandVariablesValue (vars : List KeyValue) :
    Nat → List StringValueType → Option (Except BibtexError String)
  | 0, _ => none
  | _ + 1, [] => some (Except.ok "")
  | fuel + 1, StringValueType.Str v :: rest =>
      match expandVariablesValue vars fuel rest with
      | some (Except.ok s) => some (Except.ok (v ++ s))
      | r => r
  | fuel + 1, StringValueType.Abbreviation v :: rest =>
      match findVar v vars with
      | none => some (Except.error (BibtexError.stringVariableNotFound v))
      | some var =>
          match expandVariablesValue vars fuel var.value with
          | some (Except.ok s1) =>
              match expandVariablesValue vars fuel rest with
              | some (Except.ok s2) => some (Except.ok (s1 ++ s2))
              | r => r
          | r => r

/-- The loop body of `Bibtex::fill_variables`: expand each declared variable
in order and insert its key and expanded value into the accumulated map. -/
def fillVariablesAux (vars : List KeyValue) (fuel : Nat) :
    List KeyValue → List (String × String) →
      Option (Except BibtexError (List (String × String)))
  | [], acc => some (Except.ok acc)
  | kv :: rest, acc =>
      match expandVariablesValue vars fuel kv.value with
      | none => none
      | some (Except.error e) => some (Except.error e)
      | some (Except.ok s) => fillVariablesAux vars fuel rest (hmInsert acc kv.key s)

/-- Embedding of `Bibtex::fill_variables`. -/
def fillVariables (entries : List Entry) (fuel : Nat) :
    Option (Except BibtexError (List (String × String))) :=
  fillVariablesAux (declaredVars entries) fuel (declaredVars entries) []

/-- Embedding of `Bibtex::expand_str_abbreviations`: expand preamble/tag
fragments; an abbreviation is looked up in the resolved variable map first,
then in the constant table, else the call fails. -/
def expandStrAbbreviations (vars : List (String × String)) :
    List StringValueType → Except BibtexError String
  | [] => Except.ok ""
  | StringValueType.Str v :: rest =>
      match expandStrAbbreviations vars rest with
      | Except.ok s => Except.ok (v ++ s)
      | e => e
  | StringValueType.Abbreviation v :: rest =>
      match hmGet vars v with
      | some res =>
          match expandStrAbbreviations vars rest with
          | Except.ok s => Except.ok (res ++ s)
          | e => e
      | none =>
          match constGet v with
          | some res =>
              match expandStrAbbreviations vars rest with
              | Except.ok s => Except.ok (res ++ s)
              | e => e
          | none => Except.error (BibtexError.stringVariableNotFound v)

/-- Resolved bibliography record (`Bibliography` in `model.rs`); `tags` is
the association-list embedding of its `HashMap<String, String>`. -/
structure Bibliography where
  entry_type : String
  citation_key : String
  tags : List (String × String)
  deriving DecidableEq

/-- Resolved document (`Bibtex` in `model.rs`; the `const_map` field is the
fixed table embedded as `constGet`, and the source's `variables` field is
named `vars` here because `variables` is reserved in Lean). -/
structure Bibtex where
  comments : List String
  preambles : List String
  vars : List (String × String)
  bibliographies : List Bibliography
  deriving DecidableEq

/-- Lowercasing of a tag key (`tag.key.to_lowercase()` in the source),
written as a character map so that the kernel can evaluate it; on the ASCII
tag names of the citation format this agrees with Unicode lowercasing. -/
def strToLower (s : String) : String := ⟨s.data.map Char.toLower⟩

/-- The tag loop in `Bibtex::parse`'s `Bibliography` arm: expand each tag
value and insert it under the lowercased tag key. -/
def processTags (vars : List (String × String)) :
    List KeyValue → List (String × String) →
      Except BibtexError (List (String × String))
  | [], acc => Except.ok acc
  | tag :: rest, acc =>
      match expandStrAbbreviations vars tag.value with
      | Except.error e => Except.error e
      | Except.ok s => processTags vars rest (hmInsert acc (strToLower tag.key) s)

/-- The entry loop of `Bibtex::parse`: variables are skipped, comments pushed
verbatim, preambles expanded and pushed, bibliographies built from their
expanded tags. -/
def buildEntries (vars : List (String × String)) :
    List Entry → Bibtex → Except BibtexError Bibtex
  | [], doc => Except.ok doc
  | Entry.Variable _ :: rest, doc => buildEntries vars rest doc
  | Entry.Comment v :: rest, doc =>
      buildEntries vars rest { doc with comments := doc.comments ++ [v] }
  | Entry.Preamble v :: rest, doc =>
      match expandStrAbbreviations vars v with
      | Except.error e => Except.error e
      | Except.ok s =>
          buildEntries vars rest { doc with preambles := doc.preambles ++ [s] }
  | Entry.Bibliography t k tags :: rest, doc =>
      match processTags vars tags [] with
      | Except.error e => Except.error e
      | Except.ok m =>
          buildEntries vars rest
            { doc with bibliographies := doc.bibliographies ++ [Bibliography.mk t k m] }

/-- Embedding of `Bibtex::parse` downstream of the grammar: fill the
variables, then build the document in one left-to-right pass. -/
def parse (entries : List Entry) (fuel : Nat) : Option (Except BibtexError Bibtex) :=
  match fillVariables entries fuel with
  | none => none
  | some (Except.error e) => some (Except.error e)
  | some (Except.ok vars) =>
      some (buildEntries vars entries
        { comments := [], preambles := [], vars := vars, bibliographies := [] })

/-- Modelled from the spec: the full pipeline `Bibtex::parse(text)`, with the
grammar collaborator (`parser::entries`, not part of the resolution engine
shown) abstracted as a function from text to a raw entry stream or a
`SyntaxError`. -/
def parseText (rawParse : String → Except BibtexError (List Entry)) (text : String)
    (fuel : Nat) : Option (Except BibtexError Bibtex) :=
  match rawParse text with
  | Except.error e => some (Except.error e)
  | Except.ok entries => parse entries fuel

/-- Comments of the stream, in declaration order. -/
def commentsOf (entries : List Entry) : List String :=
  entries.filterMap (fun e => match e with
    | Entry.Comment v => some v
    | _ => none)

/-- Preamble fragment lists of the stream, in declaration order. -/
def preamblesOf (entries : List Entry) : List (List StringValueType) :=
  entries.filterMap (fun e => match e with
    | Entry.Preamble v => some v
    | _ => none)

/-- Bibliography payloads of the stream, in declaration order. -/
def bibsOf (entries : List Entry) : List (String × String × List KeyValue) :=
  entries.filterMap (fun e => match e with
    | Entry.Bibliography t k tags => some (t, k, tags)
    | _ => none)

/-- Names of the abbreviation fragments in a fragment list. -/
def abbNames (chunks : List StringValueType) : List String :=
  chunks.filterMap (fun c => match c with
    | StringValueType.Abbreviation n => some n
    | _ => none)

/-- Every abbreviation fragment inside a variable definition names some
declared variable. -/
def ClosedVars (vs : List KeyValue) : Prop :=
  ∀ kv ∈ vs, ∀ n ∈ abbNames kv.value, (findVar n vs).isSome

/-- Rank witness of acyclicity of the variable-reference graph: along every
edge the lookup actually follows (a name resolving to its first declaration,
one of whose abbreviation fragments names another resolvable variable) the
rank strictly drops.  A finite reference graph is acyclic exactly when such
a rank exists. -/
def Acyclic (rk : String → Nat) (vs : List KeyValue) : Prop :=
  ∀ kv ∈ vs, ∀ m ∈ abbNames kv.value,
    ∀ kv', findVar m vs = some kv' → rk m < rk kv.key

/-- The source's `expand_variables_value` recurses forever on this input:
no finite recursion-depth budget makes the embedding return. -/
def Diverges (vs : List KeyValue) (chunks : List StringValueType) : Prop :=
  ∀ fuel, expandVariablesValue vs fuel chunks = none

/-- The source's `parse` recurses forever on this entry stream. -/
def ParseDiverges (entries : List Entry) : Prop :=
  ∀ fuel, parse entries fuel = none

/-- Last declaration of a name wins in the resolved map, so lookup there is
first-match over the reversed declaration list. -/
def lastVar (name : String) (vs : List KeyValue) : Option KeyValue :=
  findVar name vs.reverse

deriving instance DecidableEq for Except

lemma expandVariablesValue_str (vars : List KeyValue) (fuel : Nat) (v : String)
    (rest : List StringValueType) :
    expandVariablesValue vars (fuel + 1) (StringValueType.Str v :: rest) =
      match expandVariablesValue vars fuel rest with
      | some (Except.ok s) => some (Except.ok (v ++ s))
      | r => r := by
  rw [expandVariablesValue]

lemma expandVariablesValue_abb_none {vars : List KeyValue} {v : String}
    (hv : findVar v vars = none) (fuel : Nat) (rest : List StringValueType) :
    expandVariablesValue vars (fuel + 1) (StringValueType.Abbreviation v :: rest) =
      some (Except.error (BibtexError.stringVariableNotFound v)) := by
  rw [expandVariablesValue, hv]

lemma expandVariablesValue_abb_found {vars : List KeyValue} {v : String} {var : KeyValue}
    (hv : findVar v vars = some var) (fuel : Nat) (rest : List StringValueType) :
    expandVariablesValue vars (fuel + 1) (StringValueType.Abbreviation v :: rest) =
      match expandVariablesValue vars fuel var.value with
      | some (Except.ok s1) =>
          match expandVariablesValue vars fuel rest with
          | some (Except.ok s2) => some (Except.ok (s1 ++ s2))
          | r => r
      | r => r := by
  rw [expandVariablesValue, hv]

lemma expandVariablesValue_succ {vars : List KeyValue} :
    ∀ {fuel : Nat} {chunks : List StringValueType} {r : Except BibtexError String},
      expandVariablesValue vars fuel chunks = some r →
      expandVariablesValue vars (fuel + 1) chunks = some r := by
  intro fuel
  induction fuel with
  | zero => intro chunks r h; simp [expandVariablesValue] at h
  | succ f ih =>
    intro chunks r h
    cases chunks with
    | nil => simpa [expandVariablesValue] using h
    | cons c rest =>
      cases c with
      | Str v =>
        rw [expandVariablesValue_str] at h
        rw [expandVariablesValue_str]
        cases hr : expandVariablesValue vars f rest with
        | none => rw [hr] at h; exact absurd h (by simp)
        | some r' =>
          rw [hr] at h
          rw [ih hr]
          cases r' with
          | ok s => exact h
          | error e => exact h
      | Abbreviation v =>
        cases hv : findVar v vars with
        | none =>
          rw [expandVariablesValue_abb_none hv] at h
          rw [expandVariablesValue_abb_none hv]
          exact h
        | some var =>
          rw [expandVariablesValue_abb_found hv] at h
          rw [expandVariablesValue_abb_found hv]
          cases h1 : expandVariablesValue vars f var.value with
          | none => rw [h1] at h; exact absurd h (by simp)
          | some r1 =>
            rw [h1] at h
            rw [ih h1]
            cases r1 with
            | error e => exact h
            | ok s1 =>
              cases h2 : expandVariablesValue vars f rest with
              | none => rw [h2] at h; exact absurd h (by simp)
              | some r2 =>
                rw [h2] at h
                rw [ih h2]
                cases r2 with
                | ok s2 => exact h
                | error e => exact h

lemma expandVariablesValue_mono {vars : List KeyValue} {f f' : Nat} (hle : f ≤ f')
    {chunks : List StringValueType} {r : Except BibtexError String}
    (h : expandVariablesValue vars f chunks = some r) :
    expandVariablesValue vars f' chunks = some r := by
  induction hle with
  | refl => exact h
  | step _ ih => exact expandVariablesValue_succ ih

lemma expandVariablesValue_error {vars : List KeyValue} :
    ∀ {fuel : Nat} {chunks : List StringValueType} {e : BibtexError},
      expandVariablesValue vars fuel chunks = some (Except.error e) →
      ∃ n, e = BibtexError.stringVariableNotFound n ∧ findVar n vars = none := by
  intro fuel
  induction fuel with
  | zero => intro chunks e h; simp [expandVariablesValue] at h
  | succ f ih =>
    intro chunks e h
    cases chunks with
    | nil => simp [expandVariablesValue] at h
    | cons c rest =>
      cases c with
      | Str v =>
        rw [expandVariablesValue_str] at h
        cases hr : expandVariablesValue vars f rest with
        | none => rw [hr] at h; exact absurd h (by simp)
        | some r' =>
          rw [hr] at h
          cases r' with
          | ok s => exact absurd h (by simp)
          | error e' =>
            cases h
            exact ih hr
      | Abbreviation v =>
        cases hv : findVar v vars with
        | none =>
          rw [expandVariablesValue_abb_none hv] at h
          cases h
          exact ⟨v, rfl, hv⟩
        | some var =>
          rw [expandVariablesValue_abb_found hv] at h
          cases h1 : expandVariablesValue vars f var.value with
          | none => rw [h1] at h; exact absurd h (by simp)
          | some r1 =>
            rw [h1] at h
            cases r1 with
            | error e1 =>
              cases h
              exact ih h1
            | ok s1 =>
              cases h2 : expandVariablesValue vars f rest with
              | none => rw [h2] at h; exact absurd h (by simp)
              | some r2 =>
                rw [h2] at h
                cases r2 with
                | ok s2 => exact absurd h (by simp)
                | error e2 =>
                  cases h
                  exact ih h2

lemma expandVariablesValue_not_ok_of_bad {vars : List KeyValue} :
    ∀ {fuel : Nat} {chunks : List StringValueType} {n : String},
      n ∈ abbNames chunks → findVar n vars = none →
      ∀ s, expandVariablesValue vars fuel chunks ≠ some (Except.ok s) := by
  intro fuel
  induction fuel with
  | zero => intro chunks n _ _ s h; simp [expandVariablesValue] at h
  | succ f ih =>
    intro chunks n hn hfind s h
    cases chunks with
    | nil => simp [abbNames] at hn
    | cons c rest =>
      cases c with
      | Str v =>
        rw [expandVariablesValue_str] at h
        have hn' : n ∈ abbNames rest := by simpa [abbNames] using hn
        cases hr : expandVariablesValue vars f rest with
        | none => rw [hr] at h; exact absurd h (by simp)
        | some r' =>
          rw [hr] at h
          cases r' with
          | ok s' => exact ih hn' hfind s' hr
          | error e => exact absurd h (by simp)
      | Abbreviation v =>
        have hv : n = v ∨ n ∈ abbNames rest := by
          simpa [abbNames] using hn
        cases hfv : findVar v vars with
        | none =>
          rw [expandVariablesValue_abb_none hfv] at h
          exact absurd h (by simp)
        | some var =>
          rw [expandVariablesValue_abb_found hfv] at h
          have hnr : n ∈ abbNames rest := by
            rcases hv with rfl | hv
            · rw [hfv] at hfind; exact absurd hfind (by simp)
            · exact hv
          cases h1 : expandVariablesValue vars f var.value with
          | none => rw [h1] at h; exact absurd h (by simp)
          | some r1 =>
            rw [h1] at h
            cases r1 with
            | error e => exact absurd h (by simp)
            | ok s1 =>
              cases h2 : expandVariablesValue vars f rest with
              | none => rw [h2] at h; exact absurd h (by simp)
              | some r2 =>
                rw [h2] at h
                cases r2 with
                | ok s2 => exact ih hnr hfind s2 h2
                | error e => exact absurd h (by simp)

lemma abbNames_cons_str (v : String) (rest : List StringValueType) :
    abbNames (StringValueType.Str v :: rest) = abbNames rest := by
  simp [abbNames]

lemma abbNames_cons_abb (v : String) (rest : List StringValueType) :
    abbNames (StringValueType.Abbreviation v :: rest) = v :: abbNames rest := by
  simp [abbNames]

lemma expandVariablesValue_terminates_of_each {vars : List KeyValue} :
    ∀ {chunks : List StringValueType},
      (∀ n ∈ abbNames chunks, ∀ kv, findVar n vars = some kv →
        ∃ f r, expandVariablesValue vars f kv.value = some r) →
      ∃ f r, expandVariablesValue vars f chunks = some r := by
  intro chunks
  induction chunks with
  | nil => exact fun _ => ⟨1, Except.ok "", by simp [expandVariablesValue]⟩
  | cons c rest ih =>
    intro h
    cases c with
    | Str v =>
      obtain ⟨f, r, hr⟩ := ih (fun n hn kv hkv => h n (by rw [abbNames_cons_str]; exact hn) kv hkv)
      cases r with
      | ok s =>
        exact ⟨f + 1, Except.ok (v ++ s), by rw [expandVariablesValue_str, hr]⟩
      | error e =>
        exact ⟨f + 1, Except.error e, by rw [expandVariablesValue_str, hr]⟩
    | Abbreviation v =>
      cases hfv : findVar v vars with
      | none =>
        exact ⟨1, Except.error (BibtexError.stringVariableNotFound v),
          expandVariablesValue_abb_none hfv 0 rest⟩
      | some var =>
        obtain ⟨f1, r1, hr1⟩ := h v (by rw [abbNames_cons_abb]; exact List.mem_cons_self v _) var hfv
        obtain ⟨f2, r2, hr2⟩ := ih (fun n hn kv hkv =>
          h n (by rw [abbNames_cons_abb]; exact List.mem_cons_of_mem v hn) kv hkv)
        have hr1' : expandVariablesValue vars (max f1 f2) var.value = some r1 :=
          expandVariablesValue_mono (Nat.le_max_left f1 f2) hr1
        have hr2' : expandVariablesValue vars (max f1 f2) rest = some r2 :=
          expandVariablesValue_mono (Nat.le_max_right f1 f2) hr2
        cases r1 with
        | error e =>
          exact ⟨max f1 f2 + 1, Except.error e,
            by rw [expandVariablesValue_abb_found hfv, hr1']⟩
        | ok s1 =>
          cases r2 with
          | ok s2 =>
            exact ⟨max f1 f2 + 1, Except.ok (s1 ++ s2),
              by rw [expandVariablesValue_abb_found hfv, hr1', hr2']⟩
          | error e =>
            exact ⟨max f1 f2 + 1, Except.error e,
              by rw [expandVariablesValue_abb_found hfv, hr1', hr2']⟩

lemma common_fuel {vars : List KeyValue} :
    ∀ {l : List KeyValue},
      (∀ kv ∈ l, ∃ f r, expandVariablesValue vars f kv.value = some r) →
      ∃ f, ∀ kv ∈ l, ∃ r, expandVariablesValue vars f kv.value = some r := by
  intro l
  induction l with
  | nil => exact fun _ => ⟨0, by simp⟩
  | cons kv rest ih =>
    intro h
    obtain ⟨f1, r1, hr1⟩ := h kv (by simp)
    obtain ⟨f2, hf2⟩ := ih (fun kv' hkv' => h kv' (by simp [hkv']))
    refine ⟨max f1 f2, ?_⟩
    intro kv' hkv'
    rcases List.mem_cons.mp hkv' with rfl | hmem
    · exact ⟨r1, expandVariablesValue_mono (Nat.le_max_left f1 f2) hr1⟩
    · obtain ⟨r, hr⟩ := hf2 kv' hmem
      exact ⟨r, expandVariablesValue_mono (Nat.le_max_right f1 f2) hr⟩

lemma hmInsert_cons_ne (p : String × String) (t : List (String × String)) (k v : String)
    (hp : ¬ p.1 = k) : hmInsert (p :: t) k v = p :: hmInsert t k v := by
  by_cases ha : t.any (fun q => q.1 == k) <;> simp [hmInsert, hp, ha]

lemma hmGet_cons (p : String × String) (t : List (String × String)) (k' : String) :
    hmGet (p :: t) k' = if p.1 = k' then some p.2 else hmGet t k' := by
  by_cases h : p.1 = k'
  · simp [hmGet, List.find?_cons, h]
  · have hb : (p.1 == k') = false := by simpa using h
    simp [hmGet, List.find?_cons, hb, h]

lemma hmGet_map_replace (t : List (String × String)) (k v k' : String) (hne : ¬ k' = k) :
    hmGet (t.map (fun p => if p.1 == k then (k, v) else p)) k' = hmGet t k' := by
  induction t with
  | nil => rfl
  | cons q t ih =>
    rw [List.map_cons, hmGet_cons, hmGet_cons, ih]
    by_cases hq : q.1 = k
    · have h1 : ¬ k = k' := fun hh => hne hh.symm
      have h2 : ¬ q.1 = k' := by rw [hq]; exact h1
      simp [hq, h1, h2]
    · simp [hq]

lemma hmGet_hmInsert (m : List (String × String)) (k v k' : String) :
    hmGet (hmInsert m k v) k' = if k' = k then some v else hmGet m k' := by
  induction m with
  | nil =>
    have hins : hmInsert [] k v = [(k, v)] := by simp [hmInsert]
    rw [hins, hmGet_cons]
    by_cases h : k' = k
    · simp [h]
    · have h1 : ¬ k = k' := fun hh => h hh.symm
      simp [h, h1, hmGet]
  | cons p t ih =>
    by_cases hp : p.1 = k
    · have hins : hmInsert (p :: t) k v =
          (k, v) :: t.map (fun q => if q.1 == k then (k, v) else q) := by
        simp [hmInsert, hp]
      rw [hins, hmGet_cons, hmGet_cons]
      by_cases h : k' = k
      · simp [h]
      · have h1 : ¬ k = k' := fun hh => h hh.symm
        have h2 : ¬ p.1 = k' := by rw [hp]; exact h1
        rw [hmGet_map_replace t k v k' h]
        simp [h, h1, h2]
    · rw [hmInsert_cons_ne p t k v hp, hmGet_cons, hmGet_cons, ih]
      by_cases h : k' = k
      · have h2 : ¬ p.1 = k' := by rw [h]; exact hp
        simp [h, h2, hp]
      · simp [h]

lemma findVar_eq_some_key {n : String} {vs : List KeyValue} {kv : KeyValue}
    (h : findVar n vs = some kv) : kv.key = n := by
  have hp := List.find?_some h
  simp at hp
  exact hp.symm

lemma findVar_mem {n : String} {vs : List KeyValue} {kv : KeyValue}
    (h : findVar n vs = some kv) : kv ∈ vs :=
  List.mem_of_find?_eq_some h

lemma findVar_isSome_iff {n : String} {vs : List KeyValue} :
    (findVar n vs).isSome ↔ ∃ kv ∈ vs, kv.key = n := by
  rw [findVar, List.find?_isSome]
  constructor
  · rintro ⟨kv, hmem, hp⟩
    simp at hp
    exact ⟨kv, hmem, hp.symm⟩
  · rintro ⟨kv, hmem, hk⟩
    exact ⟨kv, hmem, by simp [hk]⟩

lemma findVar_singleton (n : String) (kv : KeyValue) :
    findVar n [kv] = if kv.key = n then some kv else none := by
  by_cases h : kv.key = n
  · simp [findVar, List.find?_cons, h]
  · have h1 : ¬ n = kv.key := fun hh => h hh.symm
    have hb : (n == kv.key) = false := by simpa using h1
    simp [findVar, List.find?_cons, hb, h]

lemma lastVar_cons (n : String) (kv : KeyValue) (rest : List KeyValue) :
    lastVar n (kv :: rest) = (lastVar n rest).or (findVar n [kv]) := by
  simp only [lastVar, findVar, List.reverse_cons, List.find?_append]

lemma lastVar_isSome_iff (n : String) (l : List KeyValue) :
    (lastVar n l).isSome ↔ ∃ kv ∈ l, kv.key = n := by
  rw [lastVar, findVar_isSome_iff]
  simp

lemma acyclic_of_forall_mem {rk : String → Nat} {vs : List KeyValue}
    (h : ∀ kv ∈ vs, ∀ m ∈ abbNames kv.value,
      ∀ kv2 ∈ vs, kv2.key = m → rk m < rk kv.key) :
    Acyclic rk vs :=
  fun kv hkv m hm kv' hfind' =>
    h kv hkv m hm kv' (findVar_mem hfind') (findVar_eq_some_key hfind')

lemma acyclic_terminates {vars : List KeyValue} {rk : String → Nat}
    (hac : Acyclic rk vars) :
    ∀ (k : Nat) (n : String) (kv : KeyValue), rk n ≤ k → findVar n vars = some kv →
      ∃ f r, expandVariablesValue vars f kv.value = some r := by
  intro k
  induction k using Nat.strong_induction_on with
  | _ k ihk =>
    intro n kv hle hfind
    apply expandVariablesValue_terminates_of_each
    intro m hm kv' hfind'
    have hlt : rk m < rk kv.key := hac kv (findVar_mem hfind) m hm kv' hfind'
    rw [findVar_eq_some_key hfind] at hlt
    exact ihk (rk m) (by omega) m kv' (le_refl _) hfind'

lemma fillVariablesAux_some {vars : List KeyValue} {fuel : Nat} :
    ∀ {l : List KeyValue} {acc : List (String × String)},
      (∀ kv ∈ l, ∃ r, expandVariablesValue vars fuel kv.value = some r) →
      ∃ res, fillVariablesAux vars fuel l acc = some res := by
  intro l
  induction l with
  | nil => exact fun _ => ⟨Except.ok _, rfl⟩
  | cons kv rest ih =>
    intro acc h
    obtain ⟨r, hr⟩ := h kv (List.mem_cons_self kv rest)
    cases r with
    | error e =>
      exact ⟨Except.error e, by rw [fillVariablesAux, hr]⟩
    | ok s =>
      obtain ⟨res, hres⟩ := ih (fun kv' hkv' => h kv' (List.mem_cons_of_mem kv hkv'))
      exact ⟨res, by rw [fillVariablesAux, hr]; exact hres⟩

lemma fillVariablesAux_err {vars : List KeyValue} {fuel : Nat} :
    ∀ {l : List KeyValue} {acc : List (String × String)},
      (∀ kv ∈ l, ∃ r, expandVariablesValue vars fuel kv.value = some r) →
      (∃ kv ∈ l, ∃ n ∈ abbNames kv.value, findVar n vars = none) →
      ∃ m, fillVariablesAux vars fuel l acc =
          some (Except.error (BibtexError.stringVariableNotFound m)) ∧
        findVar m vars = none := by
  intro l
  induction l with
  | nil => rintro _ _ ⟨kv, hkv, _⟩; exact absurd hkv (List.not_mem_nil kv)
  | cons kv rest ih =>
    rintro acc hall ⟨kv0, hkv0, n0, hn0, hfind0⟩
    obtain ⟨r, hr⟩ := hall kv (List.mem_cons_self kv rest)
    cases r with
    | error e =>
      obtain ⟨m, hm, hfm⟩ := expandVariablesValue_error hr
      exact ⟨m, by rw [fillVariablesAux, hr, hm], hfm⟩
    | ok s =>
      rcases List.mem_cons.mp hkv0 with rfl | hmem
      · exact absurd hr (expandVariablesValue_not_ok_of_bad hn0 hfind0 s)
      · obtain ⟨m, hm, hfm⟩ :=
          ih (fun kv' hkv' => hall kv' (List.mem_cons_of_mem kv hkv')) ⟨kv0, hmem, n0, hn0, hfind0⟩
        exact ⟨m, by rw [fillVariablesAux, hr]; exact hm, hfm⟩

lemma fillVariablesAux_get {vars : List KeyValue} {fuel : Nat} :
    ∀ {l : List KeyValue} {acc m : List (String × String)},
      fillVariablesAux vars fuel l acc = some (Except.ok m) →
      ∀ n, (match lastVar n l with
            | some kv => ∃ s, expandVariablesValue vars fuel kv.value = some (Except.ok s) ∧
                hmGet m n = some s
            | none => hmGet m n = hmGet acc n) := by
  intro l
  induction l with
  | nil =>
    intro acc m h n
    rw [fillVariablesAux] at h
    cases h
    simp [lastVar, findVar]
  | cons kv rest ih =>
    intro acc m h n
    rw [fillVariablesAux] at h
    cases h1 : expandVariablesValue vars fuel kv.value with
    | none => rw [h1] at h; exact absurd h (by simp)
    | some r1 =>
      rw [h1] at h
      cases r1 with
      | error e => exact absurd h (by simp)
      | ok s =>
        have hrec := ih h
        cases hl : lastVar n rest with
        | some kv' =>
          have hsome : lastVar n (kv :: rest) = some kv' := by
            rw [lastVar_cons, hl]; rfl
          rw [hsome]
          have hgoal := hrec n
          rw [hl] at hgoal
          exact hgoal
        | none =>
          have hacc := hrec n
          rw [hl] at hacc
          rw [hmGet_hmInsert] at hacc
          have hcons : lastVar n (kv :: rest) = findVar n [kv] := by
            rw [lastVar_cons, hl]; exact Option.none_or
          by_cases hk : kv.key = n
          · have hsome : lastVar n (kv :: rest) = some kv := by
              rw [hcons, findVar_singleton, if_pos hk]
            rw [hsome]
            refine ⟨s, h1, ?_⟩
            rw [hacc, if_pos hk.symm]
          · have hnone : lastVar n (kv :: rest) = none := by
              rw [hcons, findVar_singleton, if_neg hk]
            rw [hnone]
            rw [if_neg (fun hh => hk hh.symm)] at hacc
            exact hacc

lemma expandStrAbbreviations_str (vars : List (String × String)) (v : String)
    (rest : List StringValueType) :
    expandStrAbbreviations vars (StringValueType.Str v :: rest) =
      match expandStrAbbreviations vars rest with
      | Except.ok s => Except.ok (v ++ s)
      | e => e := by
  rw [expandStrAbbreviations]

lemma expandStrAbbreviations_abb_var {vars : List (String × String)} {v res : String}
    (hv : hmGet vars v = some res) (rest : List StringValueType) :
    expandStrAbbreviations vars (StringValueType.Abbreviation v :: rest) =
      match expandStrAbbreviations vars rest with
      | Except.ok s => Except.ok (res ++ s)
      | e => e := by
  rw [expandStrAbbreviations, hv]

lemma expandStrAbbreviations_abb_const {vars : List (String × String)} {v res : String}
    (hv : hmGet vars v = none) (hc : constGet v = some res) (rest : List StringValueType) :
    expandStrAbbreviations vars (StringValueType.Abbreviation v :: rest) =
      match expandStrAbbreviations vars rest with
      | Except.ok s => Except.ok (res ++ s)
      | e => e := by
  rw [expandStrAbbreviations, hv, hc]

lemma expandStrAbbreviations_abb_undef {vars : List (String × String)} {v : String}
    (hv : hmGet vars v = none) (hc : constGet v = none) (rest : List StringValueType) :
    expandStrAbbreviations vars (StringValueType.Abbreviation v :: rest) =
      Except.error (BibtexError.stringVariableNotFound v) := by
  rw [expandStrAbbreviations, hv, hc]

/-- Last tag whose lowercased key is `n`, mirroring last-write-wins insertion
into the bibliography's tag map. -/
def lastTag (n : String) (tags : List KeyValue) : Option KeyValue :=
  tags.reverse.find? (fun kv => n == strToLower kv.key)

lemma lastTag_cons (n : String) (kv : KeyValue) (rest : List KeyValue) :
    lastTag n (kv :: rest) =
      (lastTag n rest).or (if strToLower kv.key = n then some kv else none) := by
  rw [lastTag, lastTag, List.reverse_cons, List.find?_append]
  congr 1
  by_cases h : strToLower kv.key = n
  · simp [List.find?_cons, h]
  · have h1 : ¬ n = strToLower kv.key := fun hh => h hh.symm
    have hb : (n == strToLower kv.key) = false := by simpa using h1
    simp [List.find?_cons, hb, h]

lemma lastTag_isSome_iff (n : String) (l : List KeyValue) :
    (lastTag n l).isSome ↔ ∃ kv ∈ l, strToLower kv.key = n := by
  rw [lastTag, List.find?_isSome]
  constructor
  · rintro ⟨kv, hmem, hp⟩
    simp at hp
    exact ⟨kv, List.mem_reverse.mp hmem, hp.symm⟩
  · rintro ⟨kv, hmem, hk⟩
    exact ⟨kv, List.mem_reverse.mpr hmem, by simp [hk]⟩

lemma processTags_get {vars : List (String × String)} :
    ∀ {tags : List KeyValue} {acc m : List (String × String)},
      processTags vars tags acc = Except.ok m →
      ∀ n, (match lastTag n tags with
            | some kv => ∃ s, expandStrAbbreviations vars kv.value = Except.ok s ∧
                hmGet m n = some s
            | none => hmGet m n = hmGet acc n) := by
  intro tags
  induction tags with
  | nil =>
    intro acc m h n
    rw [processTags] at h
    cases h
    simp [lastTag]
  | cons kv rest ih =>
    intro acc m h n
    rw [processTags] at h
    cases h1 : expandStrAbbreviations vars kv.value with
    | error e => rw [h1] at h; exact absurd h (by simp)
    | ok s =>
      rw [h1] at h
      have hrec := ih h
      cases hl : lastTag n rest with
      | some kv' =>
        have hsome : lastTag n (kv :: rest) = some kv' := by
          rw [lastTag_cons, hl]; rfl
        rw [hsome]
        have hgoal := hrec n
        rw [hl] at hgoal
        exact hgoal
      | none =>
        have hacc := hrec n
        rw [hl] at hacc
        rw [hmGet_hmInsert] at hacc
        have hcons : lastTag n (kv :: rest) =
            (if strToLower kv.key = n then some kv else none) := by
          rw [lastTag_cons, hl]; exact Option.none_or
        by_cases hk : strToLower kv.key = n
        · have hsome : lastTag n (kv :: rest) = some kv := by
            rw [hcons, if_pos hk]
          rw [hsome]
          refine ⟨s, h1, ?_⟩
          rw [hacc, if_pos hk.symm]
        · have hnone : lastTag n (kv :: rest) = none := by
            rw [hcons, if_neg hk]
          rw [hnone]
          rw [if_neg (fun hh => hk hh.symm)] at hacc
          exact hacc

lemma buildEntries_ok {vars : List (String × String)} :
    ∀ {entries : List Entry} {doc doc' : Bibtex},
      buildEntries vars entries doc = Except.ok doc' →
      doc'.comments = doc.comments ++ commentsOf entries ∧
      doc'.vars = doc.vars ∧
      (∃ ps, doc'.preambles = doc.preambles ++ ps ∧
        List.Forall₂ (fun v s => expandStrAbbreviations vars v = Except.ok s)
          (preamblesOf entries) ps) ∧
      (∃ bs, doc'.bibliographies = doc.bibliographies ++ bs ∧
        List.Forall₂ (fun e b => b.entry_type = e.1 ∧ b.citation_key = e.2.1 ∧
          processTags vars e.2.2 [] = Except.ok b.tags) (bibsOf entries) bs) := by
  intro entries
  induction entries with
  | nil =>
    intro doc doc' h
    rw [buildEntries] at h
    cases h
    exact ⟨by simp [commentsOf], rfl,
      ⟨[], by simp, by simp [preamblesOf]⟩, ⟨[], by simp, by simp [bibsOf]⟩⟩
  | cons e rest ih =>
    intro doc doc' h
    cases e with
    | Variable kv =>
      rw [buildEntries] at h
      obtain ⟨hc, hv, ⟨ps, hps, hfa⟩, ⟨bs, hbs, hfb⟩⟩ := ih h
      exact ⟨by simpa [commentsOf] using hc, hv,
        ⟨ps, hps, by simpa [preamblesOf] using hfa⟩,
        ⟨bs, hbs, by simpa [bibsOf] using hfb⟩⟩
    | Comment v =>
      rw [buildEntries] at h
      obtain ⟨hc, hv, ⟨ps, hps, hfa⟩, ⟨bs, hbs, hfb⟩⟩ := ih h
      refine ⟨?_, hv, ⟨ps, hps, by simpa [preamblesOf] using hfa⟩,
        ⟨bs, hbs, by simpa [bibsOf] using hfb⟩⟩
      rw [hc]
      simp [commentsOf]
    | Preamble v =>
      rw [buildEntries] at h
      cases hexp : expandStrAbbreviations vars v with
      | error e' => rw [hexp] at h; exact absurd h (by simp)
      | ok s =>
        rw [hexp] at h
        obtain ⟨hc, hv, ⟨ps, hps, hfa⟩, ⟨bs, hbs, hfb⟩⟩ := ih h
        refine ⟨by simpa [commentsOf] using hc, hv, ⟨s :: ps, ?_, ?_⟩,
          ⟨bs, hbs, by simpa [bibsOf] using hfb⟩⟩
        · rw [hps]; simp
        · rw [show preamblesOf (Entry.Preamble v :: rest) = v :: preamblesOf rest by
            simp [preamblesOf]]
          exact List.Forall₂.cons hexp hfa
    | Bibliography t k tags =>
      rw [buildEntries] at h
      cases hpt : processTags vars tags [] with
      | error e' => rw [hpt] at h; exact absurd h (by simp)
      | ok mm =>
        rw [hpt] at h
        obtain ⟨hc, hv, ⟨ps, hps, hfa⟩, ⟨bs, hbs, hfb⟩⟩ := ih h
        refine ⟨by simpa [commentsOf] using hc, hv,
          ⟨ps, hps, by simpa [preamblesOf] using hfa⟩,
          ⟨Bibliography.mk t k mm :: bs, ?_, ?_⟩⟩
        · rw [hbs]; simp
        · rw [show bibsOf (Entry.Bibliography t k tags :: rest) =
              (t, k, tags) :: bibsOf rest by simp [bibsOf]]
          exact List.Forall₂.cons ⟨rfl, rfl, hpt⟩ hfb

lemma hmGet_perm {vs1 vs2 : List (String × String)} (hperm : vs1.Perm vs2)
    (hnd : (vs1.map Prod.fst).Nodup) : ∀ k, hmGet vs1 k = hmGet vs2 k := by
  induction hperm with
  | nil => intro k; rfl
  | cons p hp ih =>
    intro k
    rw [hmGet_cons, hmGet_cons]
    rw [List.map_cons, List.nodup_cons] at hnd
    rw [ih hnd.2 k]
  | swap p q l =>
    intro k
    rw [List.map_cons, List.map_cons, List.nodup_cons] at hnd
    have hne : q.1 ≠ p.1 :=
      fun hh => hnd.1 (by rw [hh]; exact List.mem_cons_self _ _)
    rw [hmGet_cons, hmGet_cons, hmGet_cons, hmGet_cons]
    by_cases hqk : q.1 = k
    · have hpk : ¬ p.1 = k := by rw [← hqk]; exact fun hh => hne hh.symm
      simp [hqk, hpk]
    · by_cases hpk : p.1 = k <;> simp [hqk, hpk]
  | trans h1 h2 ih1 ih2 =>
    intro k
    have hnd2 := (h1.map Prod.fst).nodup hnd
    rw [ih1 hnd k, ih2 hnd2 k]

lemma expandStrAbbreviations_congr {vs1 vs2 : List (String × String)}
    (hget : ∀ k, hmGet vs1 k = hmGet vs2 k) :
    ∀ value, expandStrAbbreviations vs1 value = expandStrAbbreviations vs2 value := by
  intro value
  induction value with
  | nil => rfl
  | cons c rest ih =>
    cases c with
    | Str v => rw [expandStrAbbreviations_str, expandStrAbbreviations_str, ih]
    | Abbreviation v =>
      cases hv : hmGet vs1 v with
      | some res =>
        rw [expandStrAbbreviations_abb_var hv,
          expandStrAbbreviations_abb_var ((hget v).symm.trans hv), ih]
      | none =>
        have hv2 : hmGet vs2 v = none := (hget v).symm.trans hv
        cases hc : constGet v with
        | some res =>
          rw [expandStrAbbreviations_abb_const hv hc,
            expandStrAbbreviations_abb_const hv2 hc, ih]
        | none =>
          rw [expandStrAbbreviations_abb_undef hv hc,
            expandStrAbbreviations_abb_undef hv2 hc]

lemma fillVariablesAux_mono {vars : List KeyValue} {fuel fuel' : Nat} (hle : fuel ≤ fuel') :
    ∀ {l : List KeyValue} {acc : List (String × String)}
      {res : Except BibtexError (List (String × String))},
      fillVariablesAux vars fuel l acc = some res →
      fillVariablesAux vars fuel' l acc = some res := by
  intro l
  induction l with
  | nil => intro acc res h; exact h
  | cons kv rest ih =>
    intro acc res h
    rw [fillVariablesAux] at h
    rw [fillVariablesAux]
    cases h1 : expandVariablesValue vars fuel kv.value with
    | none => rw [h1] at h; exact absurd h (by simp)
    | some r =>
      rw [h1] at h
      rw [expandVariablesValue_mono hle h1]
      cases r with
      | error e => exact h
      | ok s => exact ih h

lemma parse_mono {entries : List Entry} {fuel fuel' : Nat} (hle : fuel ≤ fuel')
    {res : Except BibtexError Bibtex}
    (h : parse entries fuel = some res) : parse entries fuel' = some res := by
  rw [parse] at h
  rw [parse]
  cases h1 : fillVariables entries fuel with
  | none => rw [h1] at h; exact absurd h (by simp)
  | some r =>
    rw [h1] at h
    have h2 : fillVariables entries fuel' = some r := fillVariablesAux_mono hle h1
    rw [h2]
    cases r with
    | error e => exact h
    | ok vars => exact h

lemma parse_det {entries : List Entry} {f1 f2 : Nat} {r1 r2 : Except BibtexError Bibtex}
    (h1 : parse entries f1 = some r1) (h2 : parse entries f2 = some r2) : r1 = r2 := by
  rcases Nat.le_total f1 f2 with h | h
  · have h3 := parse_mono h h1
    rw [h3] at h2
    exact Option.some.inj h2
  · have h3 := parse_mono h h2
    rw [h3] at h1
    exact (Option.some.inj h1).symm

lemma expandVariablesValue_no_error_of_closed {vars : List KeyValue}
    (hcl : ClosedVars vars) :
    ∀ {fuel : Nat} {chunks : List StringValueType} {e : BibtexError},
      (∀ n ∈ abbNames chunks, (findVar n vars).isSome) →
      expandVariablesValue vars fuel chunks ≠ some (Except.error e) := by
  intro fuel
  induction fuel with
  | zero => intro chunks e _ h; simp [expandVariablesValue] at h
  | succ f ih =>
    intro chunks e hok h
    cases chunks with
    | nil => simp [expandVariablesValue] at h
    | cons c rest =>
      cases c with
      | Str v =>
        rw [expandVariablesValue_str] at h
        have hok' : ∀ n ∈ abbNames rest, (findVar n vars).isSome := by
          intro n hn; exact hok n (by rw [abbNames_cons_str]; exact hn)
        cases hr : expandVariablesValue vars f rest with
        | none => rw [hr] at h; exact absurd h (by simp)
        | some r' =>
          rw [hr] at h
          cases r' with
          | ok s => exact absurd h (by simp)
          | error e' =>
            cases h
            exact ih hok' hr
      | Abbreviation v =>
        have hvs : (findVar v vars).isSome :=
          hok v (by rw [abbNames_cons_abb]; exact List.mem_cons_self v _)
        have hok' : ∀ n ∈ abbNames rest, (findVar n vars).isSome := by
          intro n hn
          exact hok n (by rw [abbNames_cons_abb]; exact List.mem_cons_of_mem v hn)
        cases hv : findVar v vars with
        | none => rw [hv] at hvs; exact absurd hvs (by simp)
        | some var =>
          rw [expandVariablesValue_abb_found hv] at h
          have hokvar : ∀ n ∈ abbNames var.value, (findVar n vars).isSome :=
            hcl var (findVar_mem hv)
          cases h1 : expandVariablesValue vars f var.value with
          | none => rw [h1] at h; exact absurd h (by simp)
          | some r1 =>
            rw [h1] at h
            cases r1 with
            | error e1 =>
              cases h
              exact ih hokvar h1
            | ok s1 =>
              cases h2 : expandVariablesValue vars f rest with
              | none => rw [h2] at h; exact absurd h (by simp)
              | some r2 =>
                rw [h2] at h
                cases r2 with
                | ok s2 => exact absurd h (by simp)
                | error e2 =>
                  cases h
                  exact ih hok' h2

lemma fillVariablesAux_ok {vars : List KeyValue} {fuel : Nat} :
    ∀ {l : List KeyValue} {acc : List (String × String)},
      (∀ kv ∈ l, ∃ s, expandVariablesValue vars fuel kv.value = some (Except.ok s)) →
      ∃ m, fillVariablesAux vars fuel l acc = some (Except.ok m) := by
  intro l
  induction l with
  | nil => exact fun _ => ⟨_, rfl⟩
  | cons kv rest ih =>
    intro acc h
    obtain ⟨s, hs⟩ := h kv (List.mem_cons_self kv rest)
    obtain ⟨m, hm⟩ := ih (fun kv' hkv' => h kv' (List.mem_cons_of_mem kv hkv'))
    exact ⟨m, by rw [fillVariablesAux, hs]; exact hm⟩

lemma findVar_cons (n : String) (kv : KeyValue) (rest : List KeyValue) :
    findVar n (kv :: rest) = if kv.key = n then some kv else findVar n rest := by
  by_cases h : kv.key = n
  · simp [findVar, List.find?_cons, h]
  · have h1 : ¬ n = kv.key := fun hh => h hh.symm
    have hb : (n == kv.key) = false := by simpa using h1
    simp [findVar, List.find?_cons, hb, h]

lemma findVar_perm {vs1 vs2 : List KeyValue} (hperm : vs1.Perm vs2)
    (hnd : (vs1.map KeyValue.key).Nodup) : ∀ n, findVar n vs1 = findVar n vs2 := by
  induction hperm with
  | nil => intro n; rfl
  | cons p hp ih =>
    intro n
    rw [findVar_cons, findVar_cons]
    rw [List.map_cons, List.nodup_cons] at hnd
    rw [ih hnd.2 n]
  | swap p q l =>
    intro n
    rw [List.map_cons, List.map_cons, List.nodup_cons] at hnd
    have hne : q.key ≠ p.key :=
      fun hh => hnd.1 (by rw [hh]; exact List.mem_cons_self _ _)
    rw [findVar_cons, findVar_cons, findVar_cons, findVar_cons]
    by_cases hq : q.key = n
    · have hpn : ¬ p.key = n := by rw [← hq]; exact fun hh => hne hh.symm
      simp [hq, hpn]
    · by_cases hpn : p.key = n <;> simp [hq, hpn]
  | trans h1 h2 ih1 ih2 =>
    intro n
    have hnd2 := (h1.map KeyValue.key).nodup hnd
    rw [ih1 hnd n, ih2 hnd2 n]

lemma expandVariablesValue_congr {vs1 vs2 : List KeyValue}
    (hfind : ∀ n, findVar n vs1 = findVar n vs2) :
    ∀ (fuel : Nat) (chunks : List StringValueType),
      expandVariablesValue vs1 fuel chunks = expandVariablesValue vs2 fuel chunks := by
  intro fuel
  induction fuel with
  | zero => intro chunks; rfl
  | succ f ih =>
    intro chunks
    cases chunks with
    | nil => rfl
    | cons c rest =>
      cases c with
      | Str v => rw [expandVariablesValue_str, expandVariablesValue_str, ih]
      | Abbreviation v =>
        cases hv : findVar v vs1 with
        | none =>
          rw [expandVariablesValue_abb_none hv,
            expandVariablesValue_abb_none ((hfind v).symm.trans hv)]
        | some var =>
          rw [expandVariablesValue_abb_found hv,
            expandVariablesValue_abb_found ((hfind v).symm.trans hv), ih, ih]

lemma parse_ok {entries : List Entry} {fuel : Nat} {doc : Bibtex}
    (h : parse entries fuel = some (Except.ok doc)) :
    ∃ vars, fillVariables entries fuel = some (Except.ok vars) ∧
      buildEntries vars entries
        { comments := [], preambles := [], vars := vars, bibliographies := [] } =
        Except.ok doc := by
  rw [parse] at h
  cases h1 : fillVariables entries fuel with
  | none => rw [h1] at h; exact absurd h (by simp)
  | some r =>
    rw [h1] at h
    cases r with
    | error e => exact absurd h (by simp)
    | ok vars => exact ⟨vars, rfl, Option.some.inj h⟩

lemma expandStrAbbreviations_error {vars : List (String × String)} :
    ∀ {value : List StringValueType} {e : BibtexError},
      expandStrAbbreviations vars value = Except.error e →
      ∃ n, e = BibtexError.stringVariableNotFound n ∧ hmGet vars n = none ∧
        constGet n = none := by
  intro value
  induction value with
  | nil => intro e h; simp [expandStrAbbreviations] at h
  | cons c rest ih =>
    intro e h
    cases c with
    | Str v =>
      rw [expandStrAbbreviations_str] at h
      cases hr : expandStrAbbreviations vars rest with
      | ok s => rw [hr] at h; exact absurd h (by simp)
      | error e' => rw [hr] at h; cases h; exact ih hr
    | Abbreviation v =>
      cases hv : hmGet vars v with
      | some res =>
        rw [expandStrAbbreviations_abb_var hv] at h
        cases hr : expandStrAbbreviations vars rest with
        | ok s => rw [hr] at h; exact absurd h (by simp)
        | error e' => rw [hr] at h; cases h; exact ih hr
      | none =>
        cases hc : constGet v with
        | some res =>
          rw [expandStrAbbreviations_abb_const hv hc] at h
          cases hr : expandStrAbbreviations vars rest with
          | ok s => rw [hr] at h; exact absurd h (by simp)
          | error e' => rw [hr] at h; cases h; exact ih hr
        | none =>
          rw [expandStrAbbreviations_abb_undef hv hc] at h
          cases h
          exact ⟨v, rfl, hv, hc⟩

lemma processTags_error {vars : List (String × String)} :
    ∀ {tags : List KeyValue} {acc : List (String × String)} {e : BibtexError},
      processTags vars tags acc = Except.error e →
      ∃ n, e = BibtexError.stringVariableNotFound n := by
  intro tags
  induction tags with
  | nil => intro acc e h; rw [processTags] at h; exact absurd h (by simp)
  | cons kv rest ih =>
    intro acc e h
    rw [processTags] at h
    cases h1 : expandStrAbbreviations vars kv.value with
    | error e' =>
      rw [h1] at h
      cases h
      obtain ⟨n, hn, _, _⟩ := expandStrAbbreviations_error h1
      exact ⟨n, hn⟩
    | ok s =>
      rw [h1] at h
      exact ih h

lemma buildEntries_error {vars : List (String × String)} :
    ∀ {entries : List Entry} {doc : Bibtex} {e : BibtexError},
      buildEntries vars entries doc = Except.error e →
      ∃ n, e = BibtexError.stringVariableNotFound n := by
  intro entries
  induction entries with
  | nil => intro doc e h; rw [buildEntries] at h; exact absurd h (by simp)
  | cons ent rest ih =>
    intro doc e h
    cases ent with
    | Variable kv => rw [buildEntries] at h; exact ih h
    | Comment v => rw [buildEntries] at h; exact ih h
    | Preamble v =>
      rw [buildEntries] at h
      cases h1 : expandStrAbbreviations vars v with
      | error e' =>
        rw [h1] at h
        cases h
        obtain ⟨n, hn, _, _⟩ := expandStrAbbreviations_error h1
        exact ⟨n, hn⟩
      | ok s => rw [h1] at h; exact ih h
    | Bibliography t k tags =>
      rw [buildEntries] at h
      cases h1 : processTags vars tags [] with
      | error e' =>
        rw [h1] at h
        cases h
        exact processTags_error h1
      | ok mm => rw [h1] at h; exact ih h

lemma fillVariablesAux_error_shape {vars : List KeyValue} {fuel : Nat} :
    ∀ {l : List KeyValue} {acc : List (String × String)} {e : BibtexError},
      fillVariablesAux vars fuel l acc = some (Except.error e) →
      ∃ n, e = BibtexError.stringVariableNotFound n ∧ findVar n vars = none := by
  intro l
  induction l with
  | nil => intro acc e h; rw [fillVariablesAux] at h; exact absurd h (by simp)
  | cons kv rest ih =>
    intro acc e h
    rw [fillVariablesAux] at h
    cases h1 : expandVariablesValue vars fuel kv.value with
    | none => rw [h1] at h; exact absurd h (by simp)
    | some r =>
      rw [h1] at h
      cases r with
      | error e' => cases h; exact expandVariablesValue_error h1
      | ok s => exact ih h

lemma parse_shape {entries : List Entry} {fuel : Nat} {res : Except BibtexError Bibtex}
    (h : parse entries fuel = some res) :
    (∃ doc, res = Except.ok doc ∧
      doc.comments = commentsOf entries ∧
      doc.preambles.length = (preamblesOf entries).length ∧
      doc.bibliographies.length = (bibsOf entries).length) ∨
    (∃ n, res = Except.error (BibtexError.stringVariableNotFound n)) := by
  cases res with
  | ok doc =>
    left
    obtain ⟨vars, hfill, hbuild⟩ := parse_ok h
    obtain ⟨hc, _, ⟨ps, hps, hfa⟩, ⟨bs, hbs, hfb⟩⟩ := buildEntries_ok hbuild
    refine ⟨doc, rfl, by simpa using hc, ?_, ?_⟩
    · rw [hps]
      simpa using hfa.length_eq.symm
    · rw [hbs]
      simpa using hfb.length_eq.symm
  | error e =>
    right
    rw [parse] at h
    cases h1 : fillVariables entries fuel with
    | none => rw [h1] at h; exact absurd h (by simp)
    | some r =>
      rw [h1] at h
      cases r with
      | error e' =>
        cases h
        obtain ⟨n, hn, _⟩ := fillVariablesAux_error_shape h1
        exact ⟨n, by rw [hn]⟩
      | ok vars =>
        have hb : buildEntries vars entries
            { comments := [], preambles := [], vars := vars, bibliographies := [] } =
            Except.error e := by
          have := Option.some.inj h
          cases hbb : buildEntries vars entries
              { comments := [], preambles := [], vars := vars, bibliographies := [] } with
          | error e2 => rw [hbb] at this; cases this; rfl
          | ok d => rw [hbb] at this; exact absurd this (by simp)
        obtain ⟨n, hn⟩ := buildEntries_error hb
        exact ⟨n, by rw [hn]⟩

lemma diverges_of_self_loop {vs : List KeyValue} {v : String} {var : KeyValue}
    {rest : List StringValueType}
    (hfv : findVar v vs = some var)
    (hval : var.value = StringValueType.Abbreviation v :: rest) :
    Diverges vs (StringValueType.Abbreviation v :: rest) := by
  intro fuel
  induction fuel with
  | zero => rfl
  | succ f ih => rw [expandVariablesValue_abb_found hfv, hval, ih]

lemma diverges_of_chain {vs : List KeyValue} (v w : String) {varv varw : KeyValue}
    (hfv : findVar v vs = some varv)
    (hvalv : varv.value = [StringValueType.Abbreviation w])
    (hfw : findVar w vs = some varw)
    (hvalw : varw.value = [StringValueType.Abbreviation v]) :
    Diverges vs [StringValueType.Abbreviation v] := by
  have key : ∀ fuel,
      expandVariablesValue vs fuel [StringValueType.Abbreviation v] = none ∧
      expandVariablesValue vs fuel [StringValueType.Abbreviation w] = none := by
    intro fuel
    induction fuel with
    | zero => exact ⟨rfl, rfl⟩
    | succ f ih =>
      constructor
      · rw [expandVariablesValue_abb_found hfv, hvalv, ih.2]
      · rw [expandVariablesValue_abb_found hfw, hvalw, ih.1]
  exact fun fuel => (key fuel).1

lemma parse_diverges_of_first {entries : List Entry} {kv : KeyValue} {rest : List KeyValue}
    (hdecl : declaredVars entries = kv :: rest)
    (hdiv : Diverges (kv :: rest) kv.value) : ParseDiverges entries := by
  intro fuel
  rw [parse]
  have hfill : fillVariables entries fuel = none := by
    rw [fillVariables, hdecl, fillVariablesAux, hdiv fuel]
  rw [hfill]

instance (vs : List KeyValue) : Decidable (ClosedVars vs) :=
  inferInstanceAs (Decidable (∀ kv ∈ vs, ∀ n ∈ abbNames kv.value, (findVar n vs).isSome))

/-- Entry stream of the order-independence example: `A = "x" # B` declared
before `B = "y"`. -/
def entsAB : List Entry :=
  [Entry.Variable ⟨"A", [StringValueType.Str "x", StringValueType.Abbreviation "B"]⟩,
   Entry.Variable ⟨"B", [StringValueType.Str "y"]⟩]

/-- Rank function witnessing the acyclicity of the reference graph of `entsAB`. -/
def rkAB : String → Nat := fun n => if n = "A" then 1 else 0

/-- The self-referential stream `@string{a = a}`. -/
def entsSelf : List Entry :=
  [Entry.Variable ⟨"a", [StringValueType.Abbreviation "a"]⟩]

/-- C1 (amended with acyclicity): in every entry stream where each abbreviation
fragment inside a variable definition names some declared variable and whose
variable-reference graph is acyclic, every variable's fragment sequence resolves
to a fully-expanded string regardless of declaration order (forward references
included), the whole variable map fills, and resolution reads the declaration
list only through name lookup, hence is invariant under reordering distinctly
named declarations; e.g. `A = "x" # B` declared before `B = "y"` resolves `A` to
`"xy"`. -/
theorem c1_order_independence (entries : List Entry) (rk : String → Nat)
    (hcl : ClosedVars (declaredVars entries))
    (hac : Acyclic rk (declaredVars entries)) :
    (∀ kv ∈ declaredVars entries, ∃ fuel s,
        expandVariablesValue (declaredVars entries) fuel kv.value =
          some (Except.ok s)) ∧
    (∃ fuel m, fillVariables entries fuel = some (Except.ok m)) ∧
    (∀ vs', (declaredVars entries).Perm vs' →
      ((declaredVars entries).map KeyValue.key).Nodup →
      ∀ fuel chunks, expandVariablesValue vs' fuel chunks =
        expandVariablesValue (declaredVars entries) fuel chunks) ∧
    parse entsAB 5 = some (Except.ok
      { comments := [], preambles := [], vars := [("A", "xy"), ("B", "y")],
        bibliographies := [] }) := by
  have hterm : ∀ kv ∈ declaredVars entries, ∃ fuel s,
      expandVariablesValue (declaredVars entries) fuel kv.value =
        some (Except.ok s) := by
    intro kv hkv
    obtain ⟨f, r, hr⟩ := expandVariablesValue_terminates_of_each
      (fun n hn kv' hfind' => acyclic_terminates hac (rk n) n kv' (le_refl _) hfind')
    cases r with
    | error e =>
      exact absurd hr (expandVariablesValue_no_error_of_closed hcl (hcl kv hkv))
    | ok s => exact ⟨f, s, hr⟩
  refine ⟨hterm, ?_, ?_, by decide⟩
  · obtain ⟨f, hf⟩ := common_fuel (fun kv hkv => by
      obtain ⟨fuel, s, hs⟩ := hterm kv hkv
      exact ⟨fuel, Except.ok s, hs⟩)
    have hok : ∀ kv ∈ declaredVars entries, ∃ s,
        expandVariablesValue (declaredVars entries) f kv.value =
          some (Except.ok s) := by
      intro kv hkv
      obtain ⟨r, hr⟩ := hf kv hkv
      cases r with
      | error e =>
        exact absurd hr (expandVariablesValue_no_error_of_closed hcl (hcl kv hkv))
      | ok s => exact ⟨s, hr⟩
    obtain ⟨m, hm⟩ := fillVariablesAux_ok hok
    exact ⟨f, m, hm⟩
  · intro vs' hperm hnd fuel chunks
    exact expandVariablesValue_congr (fun n => (findVar_perm hperm hnd n).symm) fuel chunks

/-- C1 witness: the theorem applied to the concrete forward-reference stream
`A = "x" # B`, `B = "y"`, with its closedness and acyclicity discharged. -/
theorem c1_witness :
    parse entsAB 5 = some (Except.ok
      { comments := [], preambles := [], vars := [("A", "xy"), ("B", "y")],
        bibliographies := [] }) :=
  (c1_order_independence entsAB rkAB (by decide)
    (acyclic_of_forall_mem (by decide))).2.2.2

/-- C1 counterexample: in `@string{a = a}` every abbreviation inside a variable
definition names a declared variable, yet `a` never resolves — the source
recursion diverges and `parse` returns nothing at any recursion budget, so the
claim fails without an acyclicity hypothesis. -/
theorem c1_cex : ClosedVars (declaredVars entsSelf) ∧ ParseDiverges entsSelf :=
  ⟨by decide, parse_diverges_of_first rfl (diverges_of_self_loop rfl rfl)⟩

/-- C2: in preamble/tag expansion an abbreviation is looked up first in the
fully-resolved variable map (exact, case-sensitive); only if absent there, in
the month constant table; if absent in both the call fails with
`UndefinedVariable(name)`.  A preamble referencing `jan` with no user variable
expands to `"January"`, a user variable named `jan` shadows the constant, and
the same holds for a bibliography tag. -/
theorem c2_lookup_precedence (vars : List (String × String)) (name : String)
    (rest : List StringValueType) :
    (∀ res, hmGet vars name = some res →
      expandStrAbbreviations vars (StringValueType.Abbreviation name :: rest) =
        match expandStrAbbreviations vars rest with
        | Except.ok s => Except.ok (res ++ s)
        | e => e) ∧
    (∀ res, hmGet vars name = none → constGet name = some res →
      expandStrAbbreviations vars (StringValueType.Abbreviation name :: rest) =
        match expandStrAbbreviations vars rest with
        | Except.ok s => Except.ok (res ++ s)
        | e => e) ∧
    (hmGet vars name = none → constGet name = none →
      expandStrAbbreviations vars (StringValueType.Abbreviation name :: rest) =
        Except.error (BibtexError.stringVariableNotFound name)) ∧
    parse [Entry.Preamble [StringValueType.Abbreviation "jan"]] 1 = some (Except.ok
      { comments := [], preambles := ["January"], vars := [],
        bibliographies := [] }) ∧
    parse [Entry.Variable ⟨"jan", [StringValueType.Str "Jan!"]⟩,
           Entry.Preamble [StringValueType.Abbreviation "jan"]] 2 = some (Except.ok
      { comments := [], preambles := ["Jan!"],
        vars := [("jan", "Jan!")], bibliographies := [] }) ∧
    parse [Entry.Bibliography "article" "k1"
        [⟨"month", [StringValueType.Abbreviation "jan"]⟩]] 1 = some (Except.ok
      { comments := [], preambles := [], vars := [],
        bibliographies := [⟨"article", "k1", [("month", "January")]⟩] }) := by
  refine ⟨?_, ?_, ?_, by decide, by decide, by decide⟩
  · intro res hres
    rw [expandStrAbbreviations_abb_var hres]
  · intro res hnone hconst
    rw [expandStrAbbreviations_abb_const hnone hconst]
  · intro hnone hconst
    rw [expandStrAbbreviations_abb_undef hnone hconst]

/-- C2 witness: the variable branch of the precedence theorem applied to a map
binding `x` and an undefined-name failure at `zzz`. -/
theorem c2_witness :
    expandStrAbbreviations [("x", "1")] [StringValueType.Abbreviation "x"] =
      Except.ok "1" ∧
    expandStrAbbreviations [] [StringValueType.Abbreviation "zzz"] =
      Except.error (BibtexError.stringVariableNotFound "zzz") := by
  constructor
  · rw [(c2_lookup_precedence [("x", "1")] "x" []).1 "1" (by decide)]
    decide
  · exact (c2_lookup_precedence [] "zzz" []).2.2.1 (by decide) (by decide)

/-- Stream whose variable `a` is cyclic and also references the undeclared
name `zzz`: `@string{a = a # zzz}`. -/
def entsCycBad : List Entry :=
  [Entry.Variable ⟨"a", [StringValueType.Abbreviation "a",
    StringValueType.Abbreviation "zzz"]⟩]

/-- C3 (amended with acyclicity): inside a variable definition an abbreviation
is resolved only against the declared variables, never against the month
table.  For every entry stream whose reference graph is acyclic and which
contains a variable definition naming something outside the declared set,
`parse` fails with `UndefinedVariable(m)` for some undeclared name `m` (the
first such failure encountered); in particular `@string{m = jan}` fails with
`UndefinedVariable("jan")` even though `jan` is in the constant table. -/
theorem c3_variable_scope (entries : List Entry) (rk : String → Nat)
    (hac : Acyclic rk (declaredVars entries))
    (hbad : ∃ kv ∈ declaredVars entries, ∃ n ∈ abbNames kv.value,
      findVar n (declaredVars entries) = none) :
    (∃ fuel m, parse entries fuel =
        some (Except.error (BibtexError.stringVariableNotFound m)) ∧
      findVar m (declaredVars entries) = none) ∧
    parse [Entry.Variable ⟨"m", [StringValueType.Abbreviation "jan"]⟩] 1 =
      some (Except.error (BibtexError.stringVariableNotFound "jan")) := by
  refine ⟨?_, by decide⟩
  have hterm : ∀ kv ∈ declaredVars entries, ∃ f r,
      expandVariablesValue (declaredVars entries) f kv.value = some r :=
    fun kv hkv => expandVariablesValue_terminates_of_each
      (fun n hn kv' hfind' => acyclic_terminates hac (rk n) n kv' (le_refl _) hfind')
  obtain ⟨f, hf⟩ := common_fuel hterm
  obtain ⟨m, hm, hfm⟩ := fillVariablesAux_err hf hbad
  refine ⟨f, m, ?_, hfm⟩
  rw [parse]
  have hfill : fillVariables entries f =
      some (Except.error (BibtexError.stringVariableNotFound m)) := hm
  rw [hfill]

/-- C3 witness: the amended theorem applied to the concrete stream
`@string{v = zzz}` whose only reference is undeclared. -/
theorem c3_witness :
    ∃ fuel m,
      parse [Entry.Variable ⟨"v", [StringValueType.Abbreviation "zzz"]⟩] fuel =
        some (Except.error (BibtexError.stringVariableNotFound m)) ∧
      findVar m (declaredVars
        [Entry.Variable ⟨"v", [StringValueType.Abbreviation "zzz"]⟩]) = none :=
  (c3_variable_scope [Entry.Variable ⟨"v", [StringValueType.Abbreviation "zzz"]⟩]
    (fun _ => 0)
    (acyclic_of_forall_mem (by decide))
    ⟨⟨"v", [StringValueType.Abbreviation "zzz"]⟩, by decide, "zzz", by decide,
      by decide⟩).1

/-- C3 counterexample: `@string{a = a # zzz}` contains a variable definition
whose abbreviation `zzz` names nothing in the declared set, yet `parse` does
not fail with `UndefinedVariable` — the expansion of the earlier cyclic
fragment diverges, so `parse` returns nothing at any recursion budget. -/
theorem c3_cex :
    ("zzz" ∈ abbNames (⟨"a", [StringValueType.Abbreviation "a",
        StringValueType.Abbreviation "zzz"]⟩ : KeyValue).value) ∧
    findVar "zzz" (declaredVars entsCycBad) = none ∧
    ParseDiverges entsCycBad :=
  ⟨by decide, by decide,
    parse_diverges_of_first rfl (diverges_of_self_loop rfl rfl)⟩

/-- C4: tag names are case-folded to lowercase on insertion into the tag map
and the last declaration wins on collision after folding (`Author` then
`author` yield the single key `author` holding the later value), while
`entry_type` and `citation_key` are stored exactly as declared. -/
theorem c4_tag_case_folding :
    (∀ (vars : List (String × String)) (tags : List KeyValue)
      (m : List (String × String)),
      processTags vars tags [] = Except.ok m →
      (∀ n, (hmGet m n).isSome ↔ ∃ kv ∈ tags, strToLower kv.key = n) ∧
      (∀ n kv, lastTag n tags = some kv →
        ∃ s, expandStrAbbreviations vars kv.value = Except.ok s ∧
          hmGet m n = some s)) ∧
    parse [Entry.Bibliography "ArTicle" "KeY1"
        [⟨"Author", [StringValueType.Str "A"]⟩,
         ⟨"author", [StringValueType.Str "B"]⟩,
         ⟨"Title", [StringValueType.Str "T"]⟩]] 1 = some (Except.ok
      { comments := [], preambles := [], vars := [],
        bibliographies :=
          [⟨"ArTicle", "KeY1", [("author", "B"), ("title", "T")]⟩] }) := by
  constructor
  · intro vars tags m hpt
    have hchar := processTags_get hpt
    constructor
    · intro n
      have h := hchar n
      cases hl : lastTag n tags with
      | some kv =>
        rw [hl] at h
        obtain ⟨s, _, hs⟩ := h
        constructor
        · intro _
          exact (lastTag_isSome_iff n tags).mp (by rw [hl]; rfl)
        · intro _
          rw [hs]
          rfl
      | none =>
        rw [hl] at h
        constructor
        · intro hsome
          rw [h] at hsome
          exact absurd hsome (by simp [hmGet])
        · intro hex
          have hsome := (lastTag_isSome_iff n tags).mpr hex
          rw [hl] at hsome
          exact absurd hsome (by simp)
    · intro n kv hl
      have h := hchar n
      rw [hl] at h
      exact h
  · decide

/-- C4 witness: the theorem's tag-map characterization applied to a concrete
mixed-case tag list. -/
theorem c4_witness : (hmGet [("author", "X")] "author").isSome := by
  have h := ((c4_tag_case_folding).1 [] [⟨"AuTHor", [StringValueType.Str "X"]⟩]
    [("author", "X")] (by decide)).1 "author"
  exact h.mpr ⟨⟨"AuTHor", [StringValueType.Str "X"]⟩, by decide, by decide⟩

/-- C5: whenever `parse` succeeds, the `variables()` view of the document
contains exactly the declared variable names, and each name is mapped to the
fully-expanded string of its last declaration (values carry no residual
abbreviation fragments: they are plain strings produced by full expansion). -/
theorem c5_variables_view (entries : List Entry) (fuel : Nat) (doc : Bibtex)
    (h : parse entries fuel = some (Except.ok doc)) :
    (∀ n, (hmGet doc.vars n).isSome ↔ ∃ kv ∈ declaredVars entries, kv.key = n) ∧
    (∀ n kv, lastVar n (declaredVars entries) = some kv →
      ∃ s, expandVariablesValue (declaredVars entries) fuel kv.value =
          some (Except.ok s) ∧ hmGet doc.vars n = some s) := by
  obtain ⟨vars, hfill, hbuild⟩ := parse_ok h
  have hvars : doc.vars = vars := by
    obtain ⟨_, hv, _, _⟩ := buildEntries_ok hbuild
    exact hv
  have hchar := fillVariablesAux_get hfill
  rw [hvars]
  constructor
  · intro n
    have hc := hchar n
    cases hl : lastVar n (declaredVars entries) with
    | some kv =>
      rw [hl] at hc
      obtain ⟨s, _, hs⟩ := hc
      constructor
      · intro _
        have := (lastVar_isSome_iff n (declaredVars entries)).mp (by rw [hl]; rfl)
        exact this
      · intro _
        rw [hs]
        rfl
    | none =>
      rw [hl] at hc
      constructor
      · intro hsome
        rw [hc] at hsome
        exact absurd hsome (by simp [hmGet])
      · intro hex
        have hsome := (lastVar_isSome_iff n (declaredVars entries)).mpr hex
        rw [hl] at hsome
        exact absurd hsome (by simp)
  · intro n kv hl
    have hc := hchar n
    rw [hl] at hc
    exact hc

/-- C5 witness: applied to the parsed two-variable stream, the view holds
exactly the declared names `A`, `B`. -/
theorem c5_witness :
    (hmGet [("A", "xy"), ("B", "y")] "A").isSome ∧
    ¬ (hmGet [("A", "xy"), ("B", "y")] "C").isSome := by
  have h := (c5_variables_view entsAB 5
    { comments := [], preambles := [], vars := [("A", "xy"), ("B", "y")],
      bibliographies := [] } (by decide)).1
  constructor
  · exact (h "A").mpr
      ⟨⟨"A", [StringValueType.Str "x", StringValueType.Abbreviation "B"]⟩,
        by decide, by decide⟩
  · intro hsome
    obtain ⟨kv, hkv, hk⟩ := (h "C").mp hsome
    have hcases : kv = ⟨"A", [StringValueType.Str "x",
        StringValueType.Abbreviation "B"]⟩ ∨
        kv = ⟨"B", [StringValueType.Str "y"]⟩ := by
      simpa [entsAB, declaredVars] using hkv
    rcases hcases with rfl | rfl <;> exact absurd hk (by decide)

/-- Interleaved stream used to witness order preservation. -/
def entsMix : List Entry :=
  [Entry.Comment "c1",
   Entry.Preamble [StringValueType.Str "p1"],
   Entry.Bibliography "article" "k1" [],
   Entry.Comment "c2",
   Entry.Bibliography "book" "k2" [],
   Entry.Preamble [StringValueType.Str "p2"],
   Entry.Comment "c3"]

/-- C6: whenever `parse` succeeds, the comments are exactly the comment
entries in declaration order, and the preambles and bibliographies correspond
position-by-position (in declaration order) to the preamble and bibliography
entries of the stream, independently of how the three kinds are interleaved. -/
theorem c6_order_preservation (entries : List Entry) (fuel : Nat) (doc : Bibtex)
    (h : parse entries fuel = some (Except.ok doc)) :
    doc.comments = commentsOf entries ∧
    List.Forall₂ (fun v s => expandStrAbbreviations doc.vars v = Except.ok s)
      (preamblesOf entries) doc.preambles ∧
    List.Forall₂ (fun e b => b.entry_type = e.1 ∧ b.citation_key = e.2.1 ∧
      processTags doc.vars e.2.2 [] = Except.ok b.tags)
      (bibsOf entries) doc.bibliographies := by
  obtain ⟨vars, hfill, hbuild⟩ := parse_ok h
  obtain ⟨hc, hv, ⟨ps, hps, hfa⟩, ⟨bs, hbs, hfb⟩⟩ := buildEntries_ok hbuild
  refine ⟨by simpa using hc, ?_, ?_⟩
  · rw [hv]
    rw [show doc.preambles = ps by simpa using hps]
    exact hfa
  · rw [hv]
    rw [show doc.bibliographies = bs by simpa using hbs]
    exact hfb

/-- C6 witness: the interleaved stream keeps each of the three sequences in
declaration order. -/
theorem c6_witness :
    ∃ doc : Bibtex, doc.comments = ["c1", "c2", "c3"] ∧
      doc.preambles = ["p1", "p2"] ∧
      (doc.bibliographies.map Bibliography.citation_key) = ["k1", "k2"] := by
  refine ⟨{ comments := ["c1", "c2", "c3"], preambles := ["p1", "p2"],
            vars := [],
            bibliographies := [⟨"article", "k1", []⟩, ⟨"book", "k2", []⟩] },
    ?_, by decide, by decide⟩
  have h := (c6_order_preservation entsMix 1
    { comments := ["c1", "c2", "c3"], preambles := ["p1", "p2"], vars := [],
      bibliographies := [⟨"article", "k1", []⟩, ⟨"book", "k2", []⟩] }
    (by decide)).1
  rw [h]
  decide

/-- C7 (amended: quantified over the results the pipeline actually returns,
since on a cyclic stream it returns nothing at any recursion budget): `parse`
is all-or-nothing — whenever the pipeline returns a result, it is either a
complete document (all comments, every preamble and every bibliography of the
stream present, fully expanded) or a single error, which is a `SyntaxError`
from the grammar or an `UndefinedVariable`; no partial document is ever
returned. -/
theorem c7_all_or_nothing
    (rawParse : String → Except BibtexError (List Entry))
    (hraw : ∀ t e, rawParse t = Except.error e →
      ∃ m, e = BibtexError.syntaxError m)
    (text : String) (fuel : Nat) (res : Except BibtexError Bibtex)
    (h : parseText rawParse text fuel = some res) :
    (∃ entries doc, rawParse text = Except.ok entries ∧ res = Except.ok doc ∧
      doc.comments = commentsOf entries ∧
      doc.preambles.length = (preamblesOf entries).length ∧
      doc.bibliographies.length = (bibsOf entries).length) ∨
    (∃ m, res = Except.error (BibtexError.syntaxError m)) ∨
    (∃ n, res = Except.error (BibtexError.stringVariableNotFound n)) := by
  rw [parseText] at h
  cases hr : rawParse text with
  | error e =>
    rw [hr] at h
    obtain ⟨m, hm⟩ := hraw text e hr
    right; left
    exact ⟨m, by rw [← Option.some.inj h, hm]⟩
  | ok entries =>
    rw [hr] at h
    rcases parse_shape h with ⟨doc, hdoc, hc, hp, hb⟩ | ⟨n, hn⟩
    · exact Or.inl ⟨entries, doc, rfl, hdoc, hc, hp, hb⟩
    · exact Or.inr (Or.inr ⟨n, hn⟩)

/-- Document consisting of the single comment `c`. -/
def docC : Bibtex :=
  { comments := ["c"], preambles := [], vars := [], bibliographies := [] }

/-- C7 witness: the theorem applied to a concrete grammar result and stream. -/
theorem c7_witness :
    (∃ entries doc,
      (fun _ : String =>
        (Except.ok [Entry.Comment "c"] : Except BibtexError (List Entry))) "t" =
        Except.ok entries ∧
      (Except.ok docC : Except BibtexError Bibtex) = Except.ok doc ∧
      doc.comments = commentsOf entries ∧
      doc.preambles.length = (preamblesOf entries).length ∧
      doc.bibliographies.length = (bibsOf entries).length) ∨
    (∃ m, (Except.ok docC : Except BibtexError Bibtex) =
      Except.error (BibtexError.syntaxError m)) ∨
    (∃ n, (Except.ok docC : Except BibtexError Bibtex) =
      Except.error (BibtexError.stringVariableNotFound n)) :=
  c7_all_or_nothing (fun _ => Except.ok [Entry.Comment "c"])
    (fun t e he => absurd he (by simp)) "t" 1 _ (by decide)

/-- C8: parsing is deterministic — two runs of the pipeline on the same text
that return results return equal results (whatever recursion budgets
sufficed), and expansion does not depend on the iteration order of the
unordered variable map: permuting the (distinctly keyed) map leaves every
expansion unchanged. -/
theorem c8_deterministic :
    (∀ (rawParse : String → Except BibtexError (List Entry)) (text : String)
      (f1 f2 : Nat) (r1 r2 : Except BibtexError Bibtex),
      parseText rawParse text f1 = some r1 → parseText rawParse text f2 = some r2 →
      r1 = r2) ∧
    (∀ (vs1 vs2 : List (String × String)), vs1.Perm vs2 →
      (vs1.map Prod.fst).Nodup →
      ∀ value, expandStrAbbreviations vs1 value = expandStrAbbreviations vs2 value) := by
  constructor
  · intro rawParse text f1 f2 r1 r2 h1 h2
    rw [parseText] at h1 h2
    cases hr : rawParse text with
    | error e =>
      rw [hr] at h1 h2
      rw [← Option.some.inj h1, ← Option.some.inj h2]
    | ok entries =>
      rw [hr] at h1 h2
      exact parse_det h1 h2
  · intro vs1 vs2 hperm hnd value
    exact expandStrAbbreviations_congr (hmGet_perm hperm hnd) value

/-- C8 witness: map-order independence at a concrete two-entry map, and
fuel-independence of two concrete runs. -/
theorem c8_witness :
    expandStrAbbreviations [("a", "1"), ("b", "2")] [StringValueType.Abbreviation "a"] =
      expandStrAbbreviations [("b", "2"), ("a", "1")] [StringValueType.Abbreviation "a"] ∧
    (Except.ok docC : Except BibtexError Bibtex) = Except.ok docC :=
  ⟨c8_deterministic.2 [("a", "1"), ("b", "2")] [("b", "2"), ("a", "1")]
      (by decide) (by decide) [StringValueType.Abbreviation "a"],
    c8_deterministic.1 (fun _ => Except.ok [Entry.Comment "c"]) "t" 1 9 _ _
      (by decide) (by decide)⟩

/-- The two-variable cycle `@string{a = b}`, `@string{b = a}`. -/
def vsChain : List KeyValue :=
  [⟨"a", [StringValueType.Abbreviation "b"]⟩,
   ⟨"b", [StringValueType.Abbreviation "a"]⟩]

/-- C9: recursive expansion has no cycle detection — on any entry stream whose
variable-reference graph is acyclic every variable's fragment sequence
expansion terminates (some recursion budget returns a result), while a
variable defined in terms of itself, directly or through a chain, recurses
unboundedly: no budget ever returns, and no cycle error is produced. -/
theorem c9_termination_and_cycles :
    (∀ (entries : List Entry) (rk : String → Nat),
      Acyclic rk (declaredVars entries) →
      ∀ kv ∈ declaredVars entries, ∃ fuel r,
        expandVariablesValue (declaredVars entries) fuel kv.value = some r) ∧
    Diverges (declaredVars entsSelf) [StringValueType.Abbreviation "a"] ∧
    Diverges vsChain [StringValueType.Abbreviation "a"] := by
  refine ⟨?_, ?_, ?_⟩
  · intro entries rk hac kv hkv
    exact expandVariablesValue_terminates_of_each
      (fun n hn kv' hfind' => acyclic_terminates hac (rk n) n kv' (le_refl _) hfind')
  · exact diverges_of_self_loop rfl rfl
  · exact diverges_of_chain "a" "b" rfl rfl rfl rfl

/-- C9 witness: the acyclic-termination part applied to the concrete stream
`A = "x" # B`, `B = "y"`. -/
theorem c9_witness :
    ∃ fuel r, expandVariablesValue (declaredVars entsAB) fuel
      (⟨"A", [StringValueType.Str "x", StringValueType.Abbreviation "B"]⟩ :
        KeyValue).value = some r :=
  c9_termination_and_cycles.1 entsAB rkAB (acyclic_of_forall_mem (by decide))
    ⟨"A", [StringValueType.Str "x", StringValueType.Abbreviation "B"]⟩ (by decide)

/-- Stream declaring `a` twice and using it from a later variable and from a
preamble: `@string{a = "1"}`, `@string{a = "2"}`, `@string{b = a}`,
`@preamble{a}`. -/
def entsDup : List Entry :=
  [Entry.Variable ⟨"a", [StringValueType.Str "1"]⟩,
   Entry.Variable ⟨"a", [StringValueType.Str "2"]⟩,
   Entry.Variable ⟨"b", [StringValueType.Abbreviation "a"]⟩,
   Entry.Preamble [StringValueType.Abbreviation "a"]]

/-- C10: with duplicate declarations of one name the two resolvers disagree:
inside a variable definition an abbreviation resolves through `findVar`, the
first declaration in order, while the filled `variables()` map keeps the last
declaration (later inserts overwrite), which preamble/tag expansion then
uses.  Concretely, in `entsDup` the variable `b` resolves to `"1"` while the
map holds `a ↦ "2"` and the preamble expands to `"2"`. -/
theorem c10_duplicate_names :
    (∀ (vs : List KeyValue) (n : String) (kv : KeyValue) (fuel : Nat),
      findVar n vs = some kv →
      expandVariablesValue vs (fuel + 1) [StringValueType.Abbreviation n] =
        match expandVariablesValue vs fuel kv.value with
        | some (Except.ok s) => some (Except.ok s)
        | r => r) ∧
    (∀ (entries : List Entry) (fuel : Nat) (m : List (String × String)),
      fillVariables entries fuel = some (Except.ok m) →
      ∀ n kv, lastVar n (declaredVars entries) = some kv →
      ∃ s, expandVariablesValue (declaredVars entries) fuel kv.value =
          some (Except.ok s) ∧ hmGet m n = some s) ∧
    parse entsDup 3 = some (Except.ok
      { comments := [], preambles := ["2"],
        vars := [("a", "2"), ("b", "1")], bibliographies := [] }) := by
  refine ⟨?_, ?_, by decide⟩
  · intro vs n kv fuel hfind
    rw [expandVariablesValue_abb_found hfind]
    cases h1 : expandVariablesValue vs fuel kv.value with
    | none => rfl
    | some r1 =>
      cases r1 with
      | error e => rfl
      | ok s1 =>
        cases fuel with
        | zero => simp [expandVariablesValue] at h1
        | succ f =>
          have hrest : expandVariablesValue vs (f + 1) [] = some (Except.ok "") := rfl
          rw [hrest]
          simp [String.append_empty]
  · intro entries fuel m hfill n kv hlast
    have hchar := fillVariablesAux_get hfill n
    rw [hlast] at hchar
    exact hchar

/-- C10 witness: the first-match rule applied to a concrete one-variable list. -/
theorem c10_witness :
    expandVariablesValue [⟨"x", [StringValueType.Str "v"]⟩] 3
      [StringValueType.Abbreviation "x"] = some (Except.ok "v") := by
  have h := c10_duplicate_names.1 [⟨"x", [StringValueType.Str "v"]⟩] "x"
    ⟨"x", [StringValueType.Str "v"]⟩ 2 (by decide)
  exact h.trans (by decide)

/-- The two-variable cyclic stream `@string{a = b}`, `@string{b = a}`. -/
def entsChain : List Entry :=
  [Entry.Variable ⟨"a", [StringValueType.Abbreviation "b"]⟩,
   Entry.Variable ⟨"b", [StringValueType.Abbreviation "a"]⟩]

/-- C7 counterexample: on the cyclic stream `a = b`, `b = a` the engine
returns neither a document nor an error at any recursion budget, so "for
every input, parse returns either a fully-resolved Document or an error"
fails as a totality statement. -/
theorem c7_cex : ParseDiverges entsChain :=
  parse_diverges_of_first rfl
    (diverges_of_chain "b" "a" rfl rfl rfl rfl)
